import Mathlib

/-
  Verification development for the McVineGPU kernel pipeline
  (src/include/UtilKernels.hpp, src/include/Kernels.hpp).

  The repository ships only the kernel declarations plus the body of the
  grid-stride fill kernel initArray.  initArray is embedded directly from
  its source; the remaining kernels (solveQuadratic, simplifyTimePointPairs,
  forceIntersectionOrder, propagate, updateProbability, intersectBlock,
  calcScatteringSites) are modelled from the specification, as noted on
  each definition.

  Device floats are embedded as rational numbers where the claims are pure
  arithmetic and ordering (intersection, reduction, array fill) and as real
  numbers where the claims involve exp/log/sqrt (sampling, attenuation,
  quadratic roots).
-/

/-- A 3-component vector, mirroring Vec3<float> used by the kernels. -/
structure Vec3 (α : Type) where
  x : α
  y : α
  z : α
deriving DecidableEq, Repr

/-- The (time, point) pairs flowing between the intersection and reduction
stages, over rationals. -/
abbrev TP : Type := ℚ × Vec3 ℚ

/-- The sentinel (time, point) entry: time -1 with a zeroed companion point,
used to pad a ray whose candidate group has fewer than two valid entries. -/
def sentinelTP : TP := (-1, ⟨0, 0, 0⟩)

/-- Stable insertion of a (time, point) pair into a time-sorted list:
an entry is placed before every strictly later entry and after entries
with equal or smaller times, so scan order is preserved among ties. -/
def insertTP (c : TP) : List TP → List TP
  | [] => [c]
  | d :: ds => if c.1 ≤ d.1 then c :: d :: ds else d :: insertTP c ds

/-- Stable insertion sort of candidate (time, point) pairs by time. -/
def sortTP : List TP → List TP
  | [] => []
  | c :: cs => insertTP c (sortTP cs)

/-- Modelled from the spec: simplifyTimePointPairs (declared at
UtilKernels.hpp:75-82, body not in src/).  Per ray, discard candidates with
non-physical (negative) times, retain the two smallest valid (time, point)
entries, and pad missing slots with the sentinel time -1 and a zeroed
point. -/
def simplifyTimePointPairs (cands : List TP) : TP × TP :=
  match sortTP (cands.filter fun c => decide (0 ≤ c.1)) with
  | [] => (sentinelTP, sentinelTP)
  | [c] => (c, sentinelTP)
  | c :: d :: _ => (c, d)

/-- Modelled from the spec: forceIntersectionOrder (declared at
UtilKernels.hpp:84-85, body not in src/).  Ensure entry-time ≤ exit-time by
swapping the time and point fields together when out of order; an ordered
pair (in particular the sentinel pair) is left as-is. -/
def forceIntersectionOrder (p : TP × TP) : TP × TP :=
  if p.2.1 < p.1.1 then (p.2, p.1) else p

/-- The whole Candidate Reducer stage: simplify, then force ordering. -/
def candidateReduce (cands : List TP) : TP × TP :=
  forceIntersectionOrder (simplifyTimePointPairs cands)

/-- The point a ray at position p with velocity v reaches at time t. -/
def ptAt (p v : Vec3 ℚ) (t : ℚ) : Vec3 ℚ :=
  ⟨p.x + t * v.x, p.y + t * v.y, p.z + t * v.z⟩

/-- Modelled from the spec: one x-face evaluation of intersectBlock
(declared at Kernels.hpp:12-15, body not in src/).  The slab equation for
the face plane x = face is the quadratic with a = 0, b = v.x,
c = p.x - face; a zero direction component means no root.  A valid time is
nonnegative and its point lies within the face bounds; invalid results are
skipped, not zero-filled. -/
def faceXCands (p v : Vec3 ℚ) (Y Z face : ℚ) : List TP :=
  if v.x = 0 then [] else
    let t := (face - p.x) / v.x
    let pt := ptAt p v t
    if 0 ≤ t ∧ |pt.y| ≤ Y / 2 ∧ |pt.z| ≤ Z / 2 then [(t, pt)] else []

/-- Modelled from the spec: one y-face evaluation of intersectBlock. -/
def faceYCands (p v : Vec3 ℚ) (X Z face : ℚ) : List TP :=
  if v.y = 0 then [] else
    let t := (face - p.y) / v.y
    let pt := ptAt p v t
    if 0 ≤ t ∧ |pt.x| ≤ X / 2 ∧ |pt.z| ≤ Z / 2 then [(t, pt)] else []

/-- Modelled from the spec: one z-face evaluation of intersectBlock. -/
def faceZCands (p v : Vec3 ℚ) (X Y face : ℚ) : List TP :=
  if v.z = 0 then [] else
    let t := (face - p.z) / v.z
    let pt := ptAt p v t
    if 0 ≤ t ∧ |pt.x| ≤ X / 2 ∧ |pt.y| ≤ Y / 2 then [(t, pt)] else []

/-- Modelled from the spec: intersectBlock (declared at Kernels.hpp:12-15,
body not in src/).  For an axis-aligned box of extents X, Y, Z centered at
the origin, evaluate all six bounding faces in order and collect the valid
candidate (time, point) pairs of one ray. -/
def intersectBlock (p v : Vec3 ℚ) (X Y Z : ℚ) : List TP :=
  faceXCands p v Y Z (-(X / 2)) ++ faceXCands p v Y Z (X / 2) ++
  faceYCands p v X Z (-(Y / 2)) ++ faceYCands p v X Z (Y / 2) ++
  faceZCands p v X Y (-(Z / 2)) ++ faceZCands p v X Y (Z / 2)

/-- Helper: the Candidate Reducer maps a valid already-sorted two-candidate
group to itself. -/
theorem candidateReduce_valid_pair (e x : ℚ) (pe px : Vec3 ℚ)
    (he : 0 ≤ e) (hex : e ≤ x) :
    candidateReduce [(e, pe), (x, px)] = ((e, pe), (x, px)) := by
  have hx : (0 : ℚ) ≤ x := le_trans he hex
  unfold candidateReduce simplifyTimePointPairs
  have hfil : List.filter (fun (c : TP) => decide (0 ≤ c.1))
      [(e, pe), (x, px)] = [(e, pe), (x, px)] := by
    simp [List.filter_cons, he, hx]
  rw [hfil]
  have hsort : sortTP [(e, pe), (x, px)] = [(e, pe), (x, px)] := by
    simp [sortTP, insertTP, hex]
  rw [hsort]
  simp [forceIntersectionOrder, not_lt.mpr hex]

/-- Helper: the Candidate Reducer maps a candidate group with no valid
time to the sentinel pair. -/
theorem candidateReduce_all_invalid (cands : List TP)
    (hall : ∀ c ∈ cands, c.1 < 0) :
    candidateReduce cands = (sentinelTP, sentinelTP) := by
  have hfil : cands.filter (fun c => decide (0 ≤ c.1)) = [] := by
    apply List.filter_eq_nil_iff.mpr
    intro c hc
    simpa using not_le.mpr (hall c hc)
  unfold candidateReduce simplifyTimePointPairs
  rw [hfil]
  simp [sortTP, forceIntersectionOrder, sentinelTP]

/-- Whether one executing thread of the initArray kernel, starting its loop
at index i with the given stride, writes buffer index j: the stride is
positive, j is reachable from i in steps of stride, and j is below size. -/
def writesIdx (i stride size j : Int) : Prop :=
  0 < stride ∧ i ≤ j ∧ j < size ∧ (j - i) % stride = 0

instance (i stride size j : Int) : Decidable (writesIdx i stride size j) := by
  unfold writesIdx
  infer_instance

/-- Embedded from UtilKernels.hpp lines 40-58, the body of initArray run by
one thread: for (int i = idx; i < size; i += stride) data[i] = val.  The
buffer is modelled as a function from indices to values.  The 0 < stride
guard reflects the device launch, where stride = blockDim.x * gridDim.x is
always positive (the idx = stride = 0 branch at lines 48-51 is a host-side
compilation stub that never runs). -/
def initArray {α : Type} (data : Int → α) (size : Int) (val : α)
    (i stride : Int) : Int → α :=
  if _h : i < size ∧ 0 < stride then
    initArray (Function.update data i val) size val (i + stride) stride
  else data
termination_by (size - i).toNat
decreasing_by omega

/-- A kernel launch: each thread is an (idx, stride) pair and all threads
run the initArray body over the same buffer.  Threads write disjoint index
sets in a real launch, so sequential composition models any execution
order. -/
def launchInitArray {α : Type} (data : Int → α) (size : Int) (val : α)
    (threads : List (Int × Int)) : Int → α :=
  threads.foldl (fun d p => initArray d size val p.1 p.2) data

/-- The standard grid-stride launch shape with T threads: thread t runs
with idx = t and stride = T, matching idx = blockDim.x * blockIdx.x +
threadIdx.x and stride = blockDim.x * gridDim.x. -/
def gridStrideLaunch (T : Nat) : List (Int × Int) :=
  (List.range T).map fun (t : Nat) => ((t : Int), (T : Int))

/-- Helper: a thread leaves every index it does not write unchanged. -/
theorem initArray_frame_aux {α : Type} (size : Int) (val : α) (j : Int) :
    ∀ (n : Nat) (d : Int → α) (i stride : Int), (size - i).toNat = n →
      ¬ writesIdx i stride size j → initArray d size val i stride j = d j := by
  intro n
  induction n using Nat.strong_induction_on with
  | _ n ih =>
    intro d i stride hn hw
    rw [initArray]
    split
    case isTrue h =>
      have hji : j ≠ i := by
        intro hji
        apply hw
        subst hji
        exact ⟨h.2, le_refl j, h.1, by simp⟩
      have hw2 : ¬ writesIdx (i + stride) stride size j := by
        intro hw2
        apply hw
        rcases hw2 with ⟨hs, hij, hjs, hmod⟩
        refine ⟨hs, by omega, hjs, ?_⟩
        have hrew : j - i = (j - (i + stride)) + stride * 1 := by ring
        rw [hrew, Int.add_mul_emod_self_left, hmod]
      rw [ih ((size - (i + stride)).toNat) (by omega) _ _ _ rfl hw2]
      simp [Function.update, hji]
    case isFalse h => rfl

/-- Helper: a thread leaves every index it does not write unchanged. -/
theorem initArray_not_writes {α : Type} (d : Int → α) (size : Int) (val : α)
    (i stride j : Int) (hw : ¬ writesIdx i stride size j) :
    initArray d size val i stride j = d j :=
  initArray_frame_aux size val j _ d i stride rfl hw

/-- Helper: a thread sets every index it writes to val. -/
theorem initArray_writes_aux {α : Type} (size : Int) (val : α) (j : Int) :
    ∀ (n : Nat) (d : Int → α) (i stride : Int), (size - i).toNat = n →
      writesIdx i stride size j → initArray d size val i stride j = val := by
  intro n
  induction n using Nat.strong_induction_on with
  | _ n ih =>
    intro d i stride hn hw
    obtain ⟨hs, hij, hjs, hmod⟩ := hw
    rw [initArray]
    rw [dif_pos ⟨lt_of_le_of_lt hij hjs, hs⟩]
    by_cases hji : j = i
    · subst hji
      have hw2 : ¬ writesIdx (j + stride) stride size j := by
        rintro ⟨_, hij2, _, _⟩
        omega
      rw [initArray_not_writes _ _ _ _ _ _ hw2]
      simp [Function.update]
    · have hdvd : stride ∣ (j - i) := Int.dvd_of_emod_eq_zero hmod
      have hge : stride ≤ j - i :=
        Int.le_of_dvd (by omega) hdvd
      have hdvd2 : stride ∣ (j - (i + stride)) := by
        have hrew : j - (i + stride) = (j - i) - stride := by ring
        rw [hrew]
        exact dvd_sub hdvd dvd_rfl
      exact ih ((size - (i + stride)).toNat) (by omega) _ _ _ rfl
        ⟨hs, by omega, hjs, Int.emod_eq_zero_of_dvd hdvd2⟩

/-- Helper: a thread sets every index it writes to val. -/
theorem initArray_writes {α : Type} (d : Int → α) (size : Int) (val : α)
    (i stride j : Int) (hw : writesIdx i stride size j) :
    initArray d size val i stride j = val :=
  initArray_writes_aux size val j _ d i stride rfl hw

/-- Helper: after one thread runs, every index holds its prior value or
val. -/
theorem initArray_value {α : Type} (d : Int → α) (size : Int) (val : α)
    (i stride j : Int) :
    initArray d size val i stride j = d j ∨
    initArray d size val i stride j = val := by
  by_cases hw : writesIdx i stride size j
  · exact Or.inr (initArray_writes d size val i stride j hw)
  · exact Or.inl (initArray_not_writes d size val i stride j hw)

/-- Helper: a launch in which no thread writes index j leaves j unchanged. -/
theorem launchInitArray_frame {α : Type} (size : Int) (val : α) (j : Int) :
    ∀ (threads : List (Int × Int)) (d : Int → α),
      (∀ p ∈ threads, ¬ writesIdx p.1 p.2 size j) →
      launchInitArray d size val threads j = d j := by
  intro threads
  induction threads with
  | nil => intro d _; rfl
  | cons p ps ih =>
    intro d h
    show launchInitArray (initArray d size val p.1 p.2) size val ps j = d j
    rw [ih _ (fun q hq => h q (List.mem_cons_of_mem p hq))]
    exact initArray_not_writes _ _ _ _ _ _ (h p (List.mem_cons_self p ps))

/-- Helper: a launch in which some thread writes index j sets it to val. -/
theorem launchInitArray_covered {α : Type} (size : Int) (val : α) (j : Int) :
    ∀ (threads : List (Int × Int)) (d : Int → α),
      (∃ p ∈ threads, writesIdx p.1 p.2 size j) →
      launchInitArray d size val threads j = val := by
  intro threads
  induction threads with
  | nil => rintro d ⟨p, hp, _⟩; exact absurd hp (List.not_mem_nil p)
  | cons p ps ih =>
    intro d hex
    show launchInitArray (initArray d size val p.1 p.2) size val ps j = val
    by_cases hps : ∃ q ∈ ps, writesIdx q.1 q.2 size j
    · exact ih _ hps
    · push_neg at hps
      rcases hex with ⟨q, hq, hwq⟩
      rcases List.mem_cons.mp hq with hqp | hqps
      · subst hqp
        rw [launchInitArray_frame size val j ps _ hps]
        exact initArray_writes _ _ _ _ _ _ hwq
      · exact absurd hwq (hps q hqps)

/-- Helper: after any launch, every index holds its prior value or val. -/
theorem launchInitArray_value {α : Type} (size : Int) (val : α) (j : Int) :
    ∀ (threads : List (Int × Int)) (d : Int → α),
      launchInitArray d size val threads j = d j ∨
      launchInitArray d size val threads j = val := by
  intro threads
  induction threads with
  | nil => intro d; exact Or.inl rfl
  | cons p ps ih =>
    intro d
    show launchInitArray (initArray d size val p.1 p.2) size val ps j = _ ∨
      launchInitArray (initArray d size val p.1 p.2) size val ps j = val
    rcases ih (initArray d size val p.1 p.2) with h | h
    · rcases initArray_value d size val p.1 p.2 j with h2 | h2
      · exact Or.inl (h.trans h2)
      · exact Or.inr (h.trans h2)
    · exact Or.inr h

/-- C5: any launch whose threads together cover all indices 0 ≤ j < size at
least once leaves every such index equal to val.  (Termination is by
construction: initArray and launchInitArray are total Lean functions.) -/
theorem initArray_fills {α : Type} (size : Int) (val : α) (d : Int → α)
    (threads : List (Int × Int))
    (hcov : ∀ j, 0 ≤ j → j < size → ∃ p ∈ threads, writesIdx p.1 p.2 size j)
    (j : Int) (h0 : 0 ≤ j) (hj : j < size) :
    launchInitArray d size val threads j = val :=
  launchInitArray_covered size val j threads d (hcov j h0 hj)

/-- Witness for C5: a grid-stride launch of two threads over a three-cell
buffer fills every cell with 37. -/
theorem initArray_fills_witness :
    launchInitArray (fun _ => (0 : ℚ)) 3 37 (gridStrideLaunch 2) 1 = 37 := by
  apply initArray_fills 3 37 (fun _ => (0 : ℚ)) (gridStrideLaunch 2)
  · intro j h0 hj
    interval_cases j
    · exact ⟨((0 : Int), (2 : Int)), by decide, by decide⟩
    · exact ⟨((1 : Int), (2 : Int)), by decide, by decide⟩
    · exact ⟨((0 : Int), (2 : Int)), by decide, by decide⟩
  · norm_num
  · norm_num

/-- C10: the grid-stride initArray launch never touches an index at or above
size, leaves the whole buffer unchanged when size ≤ 0, and writes nothing
but val (so the result never depends on the prior contents). -/
theorem initArray_frame_props {α : Type} (T : Nat) (size : Int) (val : α)
    (d : Int → α) (j : Int) :
    (size ≤ 0 → launchInitArray d size val (gridStrideLaunch T) j = d j) ∧
    (size ≤ j → launchInitArray d size val (gridStrideLaunch T) j = d j) ∧
    (launchInitArray d size val (gridStrideLaunch T) j = d j ∨
     launchInitArray d size val (gridStrideLaunch T) j = val) := by
  refine ⟨?_, ?_, launchInitArray_value size val j _ d⟩
  · intro hsize
    apply launchInitArray_frame
    rintro p hp ⟨_, hij, hjs, _⟩
    rcases List.mem_map.mp hp with ⟨t, _, ht⟩
    have hp1 : p.1 = (t : Int) := by rw [← ht]
    have ht0 : (0 : Int) ≤ (t : Int) := Int.natCast_nonneg t
    omega
  · intro hsize
    apply launchInitArray_frame
    rintro p _ ⟨_, _, hjs, _⟩
    omega

/-- Witness for C10 at a concrete launch, buffer and index. -/
theorem initArray_frame_props_witness :
    ((0 : Int) ≤ 0 →
      launchInitArray (fun k => (k : ℚ)) 0 5 (gridStrideLaunch 2) 7 =
        (fun k => (k : ℚ)) 7) ∧
    ((0 : Int) ≤ 7 →
      launchInitArray (fun k => (k : ℚ)) 0 5 (gridStrideLaunch 2) 7 =
        (fun k => (k : ℚ)) 7) ∧
    (launchInitArray (fun k => (k : ℚ)) 0 5 (gridStrideLaunch 2) 7 =
        (fun k => (k : ℚ)) 7 ∨
     launchInitArray (fun k => (k : ℚ)) 0 5 (gridStrideLaunch 2) 7 = 5) :=
  initArray_frame_props 2 0 5 (fun k => (k : ℚ)) 7

/-- C1: after the Candidate Reducer the ray holds exactly two time entries
with entry-time ≤ exit-time, and when no candidate has a valid
(nonnegative) time both entries are the sentinel. -/
theorem candidateReduce_invariant (cands : List TP) :
    (candidateReduce cands).1.1 ≤ (candidateReduce cands).2.1 ∧
    ((∀ c ∈ cands, c.1 < 0) →
      candidateReduce cands = (sentinelTP, sentinelTP)) := by
  constructor
  · unfold candidateReduce forceIntersectionOrder
    set q := simplifyTimePointPairs cands with hq
    by_cases h : q.2.1 < q.1.1
    · simp only [h, if_pos]
      exact le_of_lt h
    · simp only [h, if_neg, not_false_iff]
      exact le_of_not_lt h
  · exact candidateReduce_all_invalid cands

/-- Witness for C1 at a concrete all-invalid candidate list. -/
theorem candidateReduce_invariant_witness :
    (candidateReduce [((-2 : ℚ), ⟨1, 2, 3⟩)]).1.1 ≤
      (candidateReduce [((-2 : ℚ), ⟨1, 2, 3⟩)]).2.1 ∧
    ((∀ c ∈ [((-2 : ℚ), (⟨1, 2, 3⟩ : Vec3 ℚ))], c.1 < 0) →
      candidateReduce [((-2 : ℚ), ⟨1, 2, 3⟩)] = (sentinelTP, sentinelTP)) :=
  candidateReduce_invariant [((-2 : ℚ), ⟨1, 2, 3⟩)]

/-- C7: the Candidate Reducer is idempotent on an already-canonical pair:
either valid times with entry ≤ exit, or the sentinel pair. -/
theorem candidateReduce_idempotent (e x : ℚ) (pe px : Vec3 ℚ)
    (h : (0 ≤ e ∧ e ≤ x) ∨
         (e = -1 ∧ x = -1 ∧ pe = ⟨0, 0, 0⟩ ∧ px = ⟨0, 0, 0⟩)) :
    candidateReduce [(e, pe), (x, px)] = ((e, pe), (x, px)) := by
  rcases h with ⟨he, hex⟩ | ⟨he, hx, hpe, hpx⟩
  · exact candidateReduce_valid_pair e x pe px he hex
  · subst he hx hpe hpx
    have hs := candidateReduce_all_invalid
      [((-1 : ℚ), (⟨0, 0, 0⟩ : Vec3 ℚ)), ((-1 : ℚ), ⟨0, 0, 0⟩)]
      (by norm_num)
    simpa [sentinelTP] using hs

/-- Witness for C7 at a concrete canonical pair. -/
theorem candidateReduce_idempotent_witness :
    candidateReduce [((1 : ℚ), ⟨4, 5, 6⟩), ((2 : ℚ), ⟨7, 8, 9⟩)] =
      (((1 : ℚ), ⟨4, 5, 6⟩), ((2 : ℚ), ⟨7, 8, 9⟩)) :=
  candidateReduce_idempotent 1 2 ⟨4, 5, 6⟩ ⟨7, 8, 9⟩
    (Or.inl (by norm_num))

/-- C9: for the box with extents X = Y = Z = 2 and the ray from (-5,0,0)
with direction (1,0,0), intersection followed by Candidate Reduction gives
the canonical time pair (4, 6) with points (-1,0,0) and (1,0,0). -/
theorem box_scenario_canonical_pair :
    candidateReduce (intersectBlock ⟨-5, 0, 0⟩ ⟨1, 0, 0⟩ 2 2 2) =
      (((4 : ℚ), ⟨-1, 0, 0⟩), ((6 : ℚ), ⟨1, 0, 0⟩)) := by
  have h1 : intersectBlock ⟨-5, 0, 0⟩ ⟨1, 0, 0⟩ 2 2 2 =
      [((4 : ℚ), ⟨-1, 0, 0⟩), ((6 : ℚ), ⟨1, 0, 0⟩)] := by
    norm_num [intersectBlock, faceXCands, faceYCands, faceZCands, ptAt]
  rw [h1]
  exact candidateReduce_valid_pair 4 6 ⟨-1, 0, 0⟩ ⟨1, 0, 0⟩
    (by norm_num) (by norm_num)

/-- Vectors over the reals, for the sampling and attenuation stages. -/
abbrev Vec3R : Type := Vec3 ℝ

/-- Modelled from the spec: the Euclidean distance between a ray's
post-scattering point and its pre-scattering reference point, as used by
updateProbability (declared at UtilKernels.hpp:98-102, body not in src/). -/
noncomputable def dist3 (p q : Vec3R) : ℝ :=
  Real.sqrt ((p.x - q.x) ^ 2 + (p.y - q.y) ^ 2 + (p.z - q.z) ^ 2)

/-- Modelled from the spec: the inverse-CDF draw of the truncated
exponential free-path distribution used by calcScatteringSites:
d = -ln(1 - u (1 - exp(-rate L))) / rate, with u the uniform draw and
L the length of the (entry, exit) interval. -/
noncomputable def sampleDist (rate L u : ℝ) : ℝ :=
  -Real.log (1 - u * (1 - Real.exp (-(rate * L)))) / rate

/-- Modelled from the spec: calcScatteringSites (declared at
Kernels.hpp:23-25, body not in src/), the Scattering Site Sampler for one
ray.  The RNG context is modelled as the stream of values it will produce.
A ray whose canonical pair is the sentinel keeps its current (sentinel)
scattering time and position and its RNG context is not consumed;
otherwise one uniform value is drawn, a free-path distance is sampled from
the truncated exponential over [0, t1 - t0], and the absolute scattering
position p0 + d * dir and time t0 + d / speed are produced. -/
noncomputable def calcScatteringSites (rate t0 t1 : ℝ) (p0 dir : Vec3R)
    (speed : ℝ) (scatT : ℝ) (scatP : Vec3R) (rng : List ℝ) :
    ℝ × Vec3R × List ℝ :=
  if t0 = -1 ∧ t1 = -1 then (scatT, scatP, rng)
  else
    (t0 + sampleDist rate (t1 - t0) (rng.headD (1 / 2)) / speed,
      ⟨p0.x + sampleDist rate (t1 - t0) (rng.headD (1 / 2)) * dir.x,
       p0.y + sampleDist rate (t1 - t0) (rng.headD (1 / 2)) * dir.y,
       p0.z + sampleDist rate (t1 - t0) (rng.headD (1 / 2)) * dir.z⟩,
      rng.tail)

/-- Modelled from the spec: propagate (declared at UtilKernels.hpp:90-92,
body not in src/): commit the sampled scattering position and time into
the ray's primary state; a sentinel scattering time leaves the ray's
position and time unchanged (pass-through). -/
noncomputable def propagate (origPos : Vec3R) (rayT : ℝ) (scatP : Vec3R)
    (scatT : ℝ) : Vec3R × ℝ :=
  if scatT = -1 then (origPos, rayT) else (scatP, scatT)

/-- Modelled from the spec: updateProbability (declared at
UtilKernels.hpp:98-102, body not in src/): multiply the ray's statistical
weight by the Beer-Lambert factor exp(-atten * distance) over the
travelled segment; a sentinel ray's weight is explicitly left
unmodified. -/
noncomputable def updateProbability (w : ℝ) (p1 q1 : Vec3R)
    (scatT atten : ℝ) : ℝ :=
  if scatT = -1 then w else w * Real.exp (-(atten * dist3 p1 q1))

/-- C3: a ray whose canonical pair is the sentinel keeps its sentinel
scattering time and position with its RNG context not consumed, is left
unchanged by the Propagator, and keeps its weight through
updateProbability. -/
theorem sentinel_passthrough (rate t0 t1 speed scatT rayT w atten : ℝ)
    (p0 dir scatP origPos p1 q1 : Vec3R) (rng : List ℝ)
    (h0 : t0 = -1) (h1 : t1 = -1) (hs : scatT = -1) :
    calcScatteringSites rate t0 t1 p0 dir speed scatT scatP rng =
      (scatT, scatP, rng) ∧
    propagate origPos rayT scatP scatT = (origPos, rayT) ∧
    updateProbability w p1 q1 scatT atten = w := by
  subst h0 h1 hs
  refine ⟨?_, ?_, ?_⟩
  · simp [calcScatteringSites]
  · simp [propagate]
  · simp [updateProbability]

/-- Witness for C3 at a concrete sentinel ray. -/
theorem sentinel_passthrough_witness :
    calcScatteringSites 1 (-1) (-1) ⟨0, 0, 0⟩ ⟨1, 0, 0⟩ 1 (-1) ⟨0, 0, 0⟩
        [(1 : ℝ) / 2] = (-1, ⟨0, 0, 0⟩, [(1 : ℝ) / 2]) ∧
    propagate ⟨2, 3, 4⟩ 5 ⟨0, 0, 0⟩ (-1) = (⟨2, 3, 4⟩, 5) ∧
    updateProbability 1 ⟨0, 0, 0⟩ ⟨0, 0, 0⟩ (-1) 1 = 1 :=
  sentinel_passthrough 1 (-1) (-1) 1 (-1) 5 1 1 ⟨0, 0, 0⟩ ⟨1, 0, 0⟩
    ⟨0, 0, 0⟩ ⟨2, 3, 4⟩ ⟨0, 0, 0⟩ ⟨0, 0, 0⟩ [(1 : ℝ) / 2] rfl rfl rfl

/-- C4: for a valid (non-sentinel) canonical pair and any uniform value u
in [0, 1] produced by the ray's RNG context, the sampled free-path
distance lies in [0, exit - entry]. -/
theorem scattering_distance_bounds (rate entry exit u : ℝ)
    (hr : 0 < rate) (_hv : 0 ≤ entry) (he : entry ≤ exit)
    (hu0 : 0 ≤ u) (hu1 : u ≤ 1) :
    0 ≤ sampleDist rate (exit - entry) u ∧
    sampleDist rate (exit - entry) u ≤ exit - entry := by
  have hL0 : 0 ≤ exit - entry := by linarith
  have hrL : 0 ≤ rate * (exit - entry) := mul_nonneg hr.le hL0
  have hexp1 : Real.exp (-(rate * (exit - entry))) ≤ 1 :=
    Real.exp_le_one_iff.mpr (by linarith)
  have hexp0 : 0 < Real.exp (-(rate * (exit - entry))) := Real.exp_pos _
  have hA_ge : Real.exp (-(rate * (exit - entry))) ≤
      1 - u * (1 - Real.exp (-(rate * (exit - entry)))) := by
    have hmul := mul_nonneg (sub_nonneg.mpr hu1) (sub_nonneg.mpr hexp1)
    nlinarith
  have hA_le : 1 - u * (1 - Real.exp (-(rate * (exit - entry)))) ≤ 1 := by
    have hmul := mul_nonneg hu0 (sub_nonneg.mpr hexp1)
    linarith
  have hA_pos : 0 < 1 - u * (1 - Real.exp (-(rate * (exit - entry)))) :=
    lt_of_lt_of_le hexp0 hA_ge
  have hlog_le : Real.log (1 - u * (1 - Real.exp (-(rate * (exit - entry))))) ≤ 0 :=
    Real.log_nonpos hA_pos.le hA_le
  have hlog_ge : -(rate * (exit - entry)) ≤
      Real.log (1 - u * (1 - Real.exp (-(rate * (exit - entry))))) := by
    have h := (Real.log_le_log_iff hexp0 hA_pos).mpr hA_ge
    rwa [Real.log_exp] at h
  constructor
  · exact div_nonneg (by linarith) hr.le
  · rw [sampleDist, div_le_iff₀ hr]
    nlinarith

/-- Witness for C4 at a concrete valid pair and uniform draw. -/
theorem scattering_distance_bounds_witness :
    0 ≤ sampleDist 1 (1 - 0) (1 / 2) ∧ sampleDist 1 (1 - 0) (1 / 2) ≤ 1 - 0 :=
  scattering_distance_bounds 1 0 1 (1 / 2) (by norm_num) (by norm_num)
    (by norm_num) (by norm_num) (by norm_num)

/-- C8: a grazing single-point intersection (entry = exit, non-sentinel)
yields sampled distance exactly 0 and a scattering position equal to the
entry point (the scattering time is the entry time; every value is a
well-defined real, so no NaN arises). -/
theorem grazing_single_point (rate t0 speed scatT : ℝ)
    (p0 dir scatP : Vec3R) (rng : List ℝ) (h : t0 ≠ -1) :
    sampleDist rate (t0 - t0) (rng.headD (1 / 2)) = 0 ∧
    calcScatteringSites rate t0 t0 p0 dir speed scatT scatP rng =
      (t0, p0, rng.tail) := by
  have hd : sampleDist rate (t0 - t0) (rng.headD (1 / 2)) = 0 := by
    simp [sampleDist]
  refine ⟨hd, ?_⟩
  obtain ⟨px, py, pz⟩ := p0
  rw [calcScatteringSites, if_neg (by tauto)]
  rw [hd]
  simp

/-- Witness for C8 at a concrete grazing ray. -/
theorem grazing_single_point_witness :
    sampleDist 1 ((2 : ℝ) - 2) ([(1 : ℝ) / 2].headD (1 / 2)) = 0 ∧
    calcScatteringSites 1 2 2 ⟨7, 8, 9⟩ ⟨1, 0, 0⟩ 1 (-1) ⟨0, 0, 0⟩
        [(1 : ℝ) / 2] = ((2 : ℝ), (⟨7, 8, 9⟩ : Vec3R), ([] : List ℝ)) :=
  grazing_single_point 1 2 1 (-1) ⟨7, 8, 9⟩ ⟨1, 0, 0⟩ ⟨0, 0, 0⟩
    [(1 : ℝ) / 2] (by norm_num)

/-- Counterexample for C2 as stated: with a valid scattering event whose
travelled distance is zero (grazing), the weight is unchanged even though
atten = 1 is nonzero and the ray is not a sentinel. -/
theorem updateProbability_iff_counterexample :
    updateProbability 1 ⟨0, 0, 0⟩ ⟨0, 0, 0⟩ 0 1 = 1 ∧
    (1 : ℝ) ≠ 0 ∧ (0 : ℝ) ≠ -1 := by
  refine ⟨?_, by norm_num, by norm_num⟩
  rw [updateProbability, if_neg (by norm_num)]
  simp [dist3]

/-- C2 (amended): for a nonnegative weight and atten ≥ 0 the weight after
updateProbability is at most the weight before, and equality holds exactly
when atten = 0, or the ray had no interaction (sentinel), or the travelled
distance is zero, or the weight is zero. -/
theorem updateProbability_monotone (w atten scatT : ℝ) (p1 q1 : Vec3R)
    (hw : 0 ≤ w) (ha : 0 ≤ atten) :
    updateProbability w p1 q1 scatT atten ≤ w ∧
    (updateProbability w p1 q1 scatT atten = w ↔
      atten = 0 ∨ scatT = -1 ∨ dist3 p1 q1 = 0 ∨ w = 0) := by
  by_cases hs : scatT = -1
  · rw [updateProbability, if_pos hs]
    exact ⟨le_refl w, by simp [hs]⟩
  · have hD : 0 ≤ dist3 p1 q1 := Real.sqrt_nonneg _
    have hAD : 0 ≤ atten * dist3 p1 q1 := mul_nonneg ha hD
    have hexp1 : Real.exp (-(atten * dist3 p1 q1)) ≤ 1 :=
      Real.exp_le_one_iff.mpr (by linarith)
    rw [updateProbability, if_neg hs]
    constructor
    · calc w * Real.exp (-(atten * dist3 p1 q1)) ≤ w * 1 :=
            mul_le_mul_of_nonneg_left hexp1 hw
        _ = w := mul_one w
    · constructor
      · intro heq
        by_cases hw0 : w = 0
        · exact Or.inr (Or.inr (Or.inr hw0))
        · have he1 : Real.exp (-(atten * dist3 p1 q1)) = 1 := by
            have h2 : w * Real.exp (-(atten * dist3 p1 q1)) = w * 1 := by
              rw [mul_one]; exact heq
            exact mul_left_cancel₀ hw0 h2
          have hz : atten * dist3 p1 q1 = 0 := by
            have h3 := congrArg Real.log he1
            rw [Real.log_exp, Real.log_one] at h3
            linarith
          rcases mul_eq_zero.mp hz with h4 | h4
          · exact Or.inl h4
          · exact Or.inr (Or.inr (Or.inl h4))
      · intro hcase
        rcases hcase with h4 | h4 | h4 | h4
        · rw [h4]; simp
        · exact absurd h4 hs
        · rw [h4]; simp
        · rw [h4]; simp

/-- Witness for C2 (amended) at a concrete attenuated ray. -/
theorem updateProbability_monotone_witness :
    updateProbability 1 ⟨1, 0, 0⟩ ⟨0, 0, 0⟩ 0 1 ≤ 1 ∧
    (updateProbability 1 ⟨1, 0, 0⟩ ⟨0, 0, 0⟩ 0 1 = 1 ↔
      (1 : ℝ) = 0 ∨ (0 : ℝ) = -1 ∨ dist3 ⟨1, 0, 0⟩ ⟨0, 0, 0⟩ = 0 ∨
      (1 : ℝ) = 0) :=
  updateProbability_monotone 1 1 0 ⟨1, 0, 0⟩ ⟨0, 0, 0⟩ (by norm_num)
    (by norm_num)

/-- Modelled from the spec: the stable branch of the quadratic formula
used by solveQuadratic, q = -(b + sign(b) * sqrt(b^2 - 4ac)) / 2, with
sign(b) chosen so the two large terms never cancel. -/
noncomputable def stableQ (a b c : ℝ) : ℝ :=
  -(b + (if b < 0 then (-1 : ℝ) else 1) * Real.sqrt (b ^ 2 - 4 * a * c)) / 2

/-- Modelled from the spec: solveQuadratic (declared at
UtilKernels.hpp:64-65, body not in src/).  Guards the degenerate a = 0
linear case, returns a no-real-roots flag (false) instead of an error when
the discriminant is negative or the equation is constant, and otherwise
computes one root via the stable branch x0 = q / a and the other via the
product relation x1 = c / q. -/
noncomputable def solveQuadratic (a b c : ℝ) : Bool × ℝ × ℝ :=
  if a = 0 then
    if b = 0 then (false, 0, 0) else (true, -c / b, -c / b)
  else if b ^ 2 - 4 * a * c < 0 then (false, 0, 0)
  else (true, stableQ a b c / a, c / stableQ a b c)

/-- Helper: with a nonnegative discriminant, the stable branch q satisfies
the resolvent identity q^2 + b q + a c = 0. -/
theorem stableQ_resolvent (a b c : ℝ) (hd : 0 ≤ b ^ 2 - 4 * a * c) :
    stableQ a b c ^ 2 + b * stableQ a b c + a * c = 0 := by
  have hs : ((if b < 0 then (-1 : ℝ) else 1)) ^ 2 = 1 := by
    split <;> norm_num
  have hsq : Real.sqrt (b ^ 2 - 4 * a * c) ^ 2 = b ^ 2 - 4 * a * c :=
    Real.sq_sqrt hd
  have key : stableQ a b c ^ 2 + b * stableQ a b c + a * c =
      (((if b < 0 then (-1 : ℝ) else 1)) ^ 2 *
        Real.sqrt (b ^ 2 - 4 * a * c) ^ 2 - b ^ 2 + 4 * a * c) / 4 := by
    rw [stableQ]
    ring
  rw [key, hs, hsq]
  ring

/-- Helper: x0 = q / a is a root of the quadratic when q solves the
resolvent. -/
theorem quad_root_x0 (a b c q : ℝ) (ha : a ≠ 0)
    (hq : q ^ 2 + b * q + a * c = 0) :
    a * (q / a) ^ 2 + b * (q / a) + c = 0 := by
  have key : a * (q / a) ^ 2 + b * (q / a) + c =
      (q ^ 2 + b * q + a * c) / a := by
    field_simp
    ring
  rw [key, hq, zero_div]

/-- Helper: x1 = c / q is a root of the quadratic when q solves the
resolvent (in the degenerate q = 0 case, c = 0 and c / q = 0 is again a
root). -/
theorem quad_root_x1 (a b c q : ℝ) (ha : a ≠ 0)
    (hq : q ^ 2 + b * q + a * c = 0) :
    a * (c / q) ^ 2 + b * (c / q) + c = 0 := by
  by_cases hq0 : q = 0
  · have hc : c = 0 := by
      have hac : a * c = 0 := by
        rw [hq0] at hq
        linarith [hq]
      rcases mul_eq_zero.mp hac with h | h
      · exact absurd h ha
      · exact h
    rw [hc, hq0]
    simp
  · have key : a * (c / q) ^ 2 + b * (c / q) + c =
        c * (q ^ 2 + b * q + a * c) / q ^ 2 := by
      field_simp
      ring
    rw [key, hq, mul_zero, zero_div]

/-- C6: solveQuadratic returns false (a no-real-roots signal, not an
error) whenever the quadratic has no real root, including the degenerate
near-zero a case, and whenever it returns true the two returned values
are real roots of the quadratic. -/
theorem solveQuadratic_spec (a b c : ℝ) :
    ((∀ x : ℝ, a * x ^ 2 + b * x + c ≠ 0) →
      (solveQuadratic a b c).1 = false) ∧
    (∀ x0 x1 : ℝ, solveQuadratic a b c = (true, x0, x1) →
      a * x0 ^ 2 + b * x0 + c = 0 ∧ a * x1 ^ 2 + b * x1 + c = 0) := by
  constructor
  · intro hroots
    by_cases ha : a = 0
    · by_cases hb : b = 0
      · rw [solveQuadratic, if_pos ha, if_pos hb]
      · exfalso
        apply hroots (-c / b)
        rw [ha]
        field_simp
        ring
    · by_cases hd : b ^ 2 - 4 * a * c < 0
      · rw [solveQuadratic, if_neg ha, if_pos hd]
      · exfalso
        apply hroots (stableQ a b c / a)
        exact quad_root_x0 a b c (stableQ a b c) ha
          (stableQ_resolvent a b c (le_of_not_lt hd))
  · intro x0 x1 heq
    by_cases ha : a = 0
    · by_cases hb : b = 0
      · rw [solveQuadratic, if_pos ha, if_pos hb] at heq
        exact absurd (congrArg Prod.fst heq) (by simp)
      · rw [solveQuadratic, if_pos ha, if_neg hb] at heq
        have hx0 : x0 = -c / b := (congrArg (fun p => p.2.1) heq).symm
        have hx1 : x1 = -c / b := (congrArg (fun p => p.2.2) heq).symm
        subst ha
        constructor
        · rw [hx0]; field_simp; ring
        · rw [hx1]; field_simp; ring
    · by_cases hd : b ^ 2 - 4 * a * c < 0
      · rw [solveQuadratic, if_neg ha, if_pos hd] at heq
        exact absurd (congrArg Prod.fst heq) (by simp)
      · rw [solveQuadratic, if_neg ha, if_neg hd] at heq
        have hres := stableQ_resolvent a b c (le_of_not_lt hd)
        have hx0 : x0 = stableQ a b c / a :=
          (congrArg (fun p => p.2.1) heq).symm
        have hx1 : x1 = c / stableQ a b c :=
          (congrArg (fun p => p.2.2) heq).symm
        constructor
        · rw [hx0]
          exact quad_root_x0 a b c (stableQ a b c) ha hres
        · rw [hx1]
          exact quad_root_x1 a b c (stableQ a b c) ha hres

/-- Witness for C6: x^2 + 1 has no real roots and the flag is false;
x^2 - 1 is reported solvable with roots -1 and 1. -/
theorem solveQuadratic_spec_witness :
    ((∀ x : ℝ, 1 * x ^ 2 + 0 * x + 1 ≠ 0) ∧
      (solveQuadratic 1 0 1).1 = false) ∧
    (solveQuadratic 1 0 (-1) = (true, -1, 1) ∧
      1 * (-1 : ℝ) ^ 2 + 0 * (-1) + (-1) = 0 ∧
      1 * (1 : ℝ) ^ 2 + 0 * 1 + (-1) = 0) := by
  have hno : ∀ x : ℝ, 1 * x ^ 2 + 0 * x + 1 ≠ 0 := by
    intro x
    nlinarith [sq_nonneg x]
  have hsqrt4 : Real.sqrt 4 = 2 := by
    rw [show (4 : ℝ) = 2 ^ 2 by norm_num]
    exact Real.sqrt_sq (by norm_num)
  have heval : solveQuadratic 1 0 (-1) = (true, -1, 1) := by
    rw [solveQuadratic, if_neg (by norm_num), if_neg (by norm_num)]
    rw [stableQ]
    norm_num [hsqrt4]
  have hroots := (solveQuadratic_spec 1 0 (-1)).2 (-1) 1 heval
  exact ⟨⟨hno, (solveQuadratic_spec 1 0 1).1 hno⟩, heval, hroots.1, hroots.2⟩
